import Mathlib

/-!
Verification of the span-tracking text patch engine of the
react-internationalization repository.

Documents are modelled as `List Char`; Python slicing and splicing are
modelled by `pySlice` / `pySplice` (including Python's clamping and
negative-index rules); spans are pairs of `Int`, as Python integer
offsets may become negative after a shift.  Each Python function that a
claim refers to is translated into a Lean definition keeping the
source's structure: `refactor_replace` embeds the replacement loop of
`I18nAgent.refactor_component`, `update_files_apply` embeds the splice
loop of `ComplexI18nProcessor._update_files`, `should_translate` embeds
`I18nAgent.should_translate`, `find_function_end` embeds
`I18nAgent.find_function_end`, and so on.
-/

/-- The character `{` (kept out of string literals on purpose). -/
def lbrace : Char := Char.ofNat 123

/-- The character `}`. -/
def rbrace : Char := Char.ofNat 125

/-- The single-quote character. -/
def squote : Char := Char.ofNat 39

/-- The backtick character. -/
def backq : Char := Char.ofNat 96

/-- Boolean test that `p` is an initial segment of `l` (Python `startswith`). -/
def startsWith [DecidableEq α] : List α → List α → Bool
  | [], _ => true
  | _ :: _, [] => false
  | a :: as, b :: bs => a = b && startsWith as bs

/-- `pat` occurs in `s` at offset `i`. -/
def isSubAt [DecidableEq α] (pat s : List α) (i : Nat) : Bool :=
  startsWith pat (s.drop i)

/-- Python's `pat in s` substring test. -/
def containsSub [DecidableEq α] (pat s : List α) : Bool :=
  (List.range (s.length + 1)).any (isSubAt pat s)

/-- Resolution of a Python slice index against a sequence of length `n`:
negative indices count from the end, and the result is clamped to `[0, n]`. -/
def pyIndex (n : Nat) (i : Int) : Nat :=
  if i < 0 then (max 0 (i + n)).toNat else min i.toNat n

/-- Python's `l[s:e]`. -/
def pySlice (l : List α) (s e : Int) : List α :=
  (l.take (pyIndex l.length e)).drop (pyIndex l.length s)

/-- Python's `l[:s] + r + l[e:]`: splice `r` over the span `[s, e)`. -/
def pySplice (l : List α) (s e : Int) (r : List α) : List α :=
  l.take (pyIndex l.length s) ++ r ++ l.drop (pyIndex l.length e)

theorem pyIndex_of_mem {n : Nat} {i : Int} (h0 : 0 ≤ i) (h1 : i ≤ n) :
    pyIndex n i = i.toNat := by
  unfold pyIndex
  rw [if_neg (by omega)]
  have : i.toNat ≤ n := by omega
  omega

theorem pySplice_eq {l : List α} {s e : Int} {r : List α}
    (h0 : 0 ≤ s) (hse : s ≤ e) (he : e ≤ l.length) :
    pySplice l s e r = l.take s.toNat ++ r ++ l.drop e.toNat := by
  unfold pySplice
  rw [pyIndex_of_mem h0 (le_trans hse he), pyIndex_of_mem (le_trans h0 hse) he]

theorem length_pySplice {l : List α} {s e : Int} {r : List α}
    (h0 : 0 ≤ s) (hse : s ≤ e) (he : e ≤ l.length) :
    ((pySplice l s e r).length : Int) = l.length + r.length - (e - s) := by
  rw [pySplice_eq h0 hse he]
  have hs' : s.toNat ≤ l.length := by omega
  have he' : e.toNat ≤ l.length := by omega
  simp [List.length_take, List.length_drop]
  omega

theorem pySlice_eq {l : List α} {s e : Int}
    (h0 : 0 ≤ s) (hse : s ≤ e) (he : e ≤ l.length) :
    pySlice l s e = (l.take e.toNat).drop s.toNat := by
  unfold pySlice
  rw [pyIndex_of_mem h0 (le_trans hse he), pyIndex_of_mem (le_trans h0 hse) he]

/-- The slice `[s, e)` only depends on the first `P` elements when `e ≤ P`. -/
theorem pySlice_congr_take {l l' : List α} {s e P : Int}
    (h0 : 0 ≤ s) (hse : s ≤ e) (heP : e ≤ P)
    (hel : e ≤ l.length) (hel' : e ≤ l'.length)
    (h : l.take P.toNat = l'.take P.toNat) :
    pySlice l s e = pySlice l' s e := by
  rw [pySlice_eq h0 hse hel, pySlice_eq h0 hse hel']
  have h1 : l.take e.toNat = (l.take P.toNat).take e.toNat := by
    rw [List.take_take, min_eq_left (by omega)]
  have h2 : l'.take e.toNat = (l'.take P.toNat).take e.toNat := by
    rw [List.take_take, min_eq_left (by omega)]
  rw [h1, h2, h]

/-- A slice that lies entirely inside the right part of an append. -/
theorem pySlice_append {A B : List α} {s e : Int}
    (hs : (A.length : Int) ≤ s) (hse : s ≤ e) (he : e ≤ A.length + B.length) :
    pySlice (A ++ B) s e = pySlice B (s - A.length) (e - A.length) := by
  have h0 : (0 : Int) ≤ s := le_trans (by omega) hs
  rw [pySlice_eq h0 hse (by simp; omega),
      pySlice_eq (by omega) (by omega) (by omega)]
  have hsplit : s.toNat = A.length + (s - A.length).toNat := by omega
  have hsplit' : e.toNat = A.length + (e - A.length).toNat := by omega
  rw [hsplit, hsplit', List.take_append, List.drop_append_eq_append_drop]
  have h1 : List.drop (A.length + (s - (A.length : Int)).toNat) A = [] :=
    List.drop_eq_nil_of_le (by omega)
  have h2 : A.length + (s - (A.length : Int)).toNat - A.length
      = (s - (A.length : Int)).toNat := by omega
  rw [h1, h2, List.nil_append]

/-- A slice of a suffix equals the corresponding slice of the whole list. -/
theorem pySlice_drop {l : List α} {k s e : Int}
    (hk : 0 ≤ k) (hks : k ≤ s) (hse : s ≤ e) (he : e ≤ l.length) :
    pySlice (l.drop k.toNat) (s - k) (e - k) = pySlice l s e := by
  have hkl : k.toNat ≤ l.length := by omega
  rw [pySlice_eq (by omega) (by omega) (by simp [List.length_drop]; omega),
      pySlice_eq (le_trans hk hks) hse he]
  rw [List.take_drop]
  have h1 : k.toNat + (e - k).toNat = e.toNat := by omega
  rw [h1, List.drop_drop]
  congr 1
  omega

/-!
## The span registry and the replacement loop of `I18nAgent.refactor_component`

A registry entry (one value of `self.translation_keys`) carries the
translation key, the `process_ind` flag (`true` for the Python string
`'True'`, `false` for `'Maybe'`) and the current span.
-/

/-- One entry of `self.translation_keys`, restricted to the fields the
replacement loop reads: key, `process_ind` and span. -/
structure Entry where
  key : List Char
  processInd : Bool
  span : Int × Int
deriving DecidableEq

/-- The replacement text built by `refactor_component`:
`f"{{t('{key}')}}"`. -/
def replText (key : List Char) : List Char :=
  lbrace :: 't' :: '(' :: squote :: (key ++ [squote, ')', rbrace])

/-- Shift both ends of an entry's span by `d` (the inner loop of
`refactor_component`, lines 443-447). -/
def shiftSpan (d : Int) (x : Entry) : Entry :=
  { x with span := (x.span.1 + d, x.span.2 + d) }

/-- Generic stable insertion sort (Python's `sorted` is stable). -/
def insSorted (le : α → α → Bool) (e : α) : List α → List α
  | [] => [e]
  | x :: xs => if le e x then e :: x :: xs else x :: insSorted le e xs

/-- Stable sort by the boolean order `le`. -/
def stableSort (le : α → α → Bool) : List α → List α
  | [] => []
  | x :: xs => insSorted le x (stableSort le xs)

/-- `sorted(..., key=lambda x: x[1]['span'][0])`: stable ascending sort
by span start. -/
def sortEntries : List Entry → List Entry :=
  stableSort (fun a b => a.span.1 ≤ b.span.1)

/-- The body of the `for i, (key, data) in enumerate(sorted_translation_list)`
loop of `refactor_component` (lines 437-449): an entry with
`process_ind == 'True'` splices its replacement text over its current
span and shifts the span of every later entry by the length delta;
other entries are left alone.  Returns the final text and the final
entry list (consumed entries keep their last stored span, as in the
Python dict). -/
def applyEdits : List Char → List Entry → List Char × List Entry
  | content, [] => (content, [])
  | content, x :: rest =>
    if x.processInd then
      let r := replText x.key
      let d : Int := (r.length : Int) - (x.span.2 - x.span.1)
      let p := applyEdits (pySplice content x.span.1 x.span.2 r) (rest.map (shiftSpan d))
      (p.1, x :: p.2)
    else
      let p := applyEdits content rest
      (p.1, x :: p.2)
termination_by _ l => l.length
decreasing_by all_goals simp_wf

/-- The replacement phase of `refactor_component`: sort the file's
entries by original span start, then run the edit loop. -/
def refactor_replace (content : List Char) (entries : List Entry) :
    List Char × List Entry :=
  applyEdits content (sortEntries entries)

/-!
## Well-formedness of a sorted batch

`SpanOK n x`: the span is non-empty and inside a document of length `n`.
`EntrySep a b`: `a` comes no later than `b`, and whenever one of the two
is a consuming edit the two spans are separated.
-/

/-- The span of `x` is non-empty and lies inside a document of length `n`. -/
def SpanOK (n : Int) (x : Entry) : Prop :=
  0 ≤ x.span.1 ∧ x.span.1 < x.span.2 ∧ x.span.2 ≤ n

instance (n : Int) (x : Entry) : Decidable (SpanOK n x) := by
  unfold SpanOK; infer_instance

/-- Ordered separation: `a` starts no later than `b`, and if either is an
edit their spans do not meet. -/
def EntrySep (a b : Entry) : Prop :=
  a.span.1 ≤ b.span.1 ∧
    ((a.processInd = true ∨ b.processInd = true) → a.span.2 ≤ b.span.1)

instance (a b : Entry) : Decidable (EntrySep a b) := by
  unfold EntrySep; infer_instance

/-- Well-formed sorted batch over a document of length `n`. -/
structure WFBatch (n : Int) (l : List Entry) : Prop where
  ok : ∀ x ∈ l, SpanOK n x
  pw : l.Pairwise EntrySep

theorem WFBatch_tail {n : Int} {x : Entry} {l : List Entry}
    (h : WFBatch n (x :: l)) : WFBatch n l :=
  ⟨fun y hy => h.ok y (List.mem_cons_of_mem x hy), (List.pairwise_cons.mp h.pw).2⟩

@[simp] theorem shiftSpan_processInd (d : Int) (x : Entry) :
    (shiftSpan d x).processInd = x.processInd := rfl

@[simp] theorem shiftSpan_span (d : Int) (x : Entry) :
    (shiftSpan d x).span = (x.span.1 + d, x.span.2 + d) := rfl

/-- After an edit at the head is applied, the shifted tail is a
well-formed batch over the spliced document. -/
theorem WFBatch_shift {n : Int} {x : Entry} {l : List Entry}
    (h : WFBatch n (x :: l)) (hx : x.processInd = true) (r : List Char) :
    WFBatch (n + (r.length : Int) - (x.span.2 - x.span.1))
      (l.map (shiftSpan ((r.length : Int) - (x.span.2 - x.span.1)))) := by
  obtain ⟨hok, hpw⟩ := h
  obtain ⟨hsep, hpl⟩ := List.pairwise_cons.mp hpw
  have hxok := hok x (List.mem_cons_self x l)
  obtain ⟨hx0, hxlt, hxle⟩ := hxok
  constructor
  · intro y hy
    obtain ⟨z, hz, rfl⟩ := List.mem_map.mp hy
    have hzok := hok z (List.mem_cons_of_mem x hz)
    have hzsep := (hsep z hz).2 (Or.inl hx)
    obtain ⟨hz0, hzlt, hzle⟩ := hzok
    refine ⟨?_, ?_, ?_⟩ <;> simp <;> omega
  · rw [List.pairwise_map]
    refine hpl.imp ?_
    intro a b hab
    refine ⟨by have := hab.1; simp; omega, ?_⟩
    intro hc
    have := hab.2 (by simpa using hc)
    simp
    omega

/-- Every edit of the shifted tail still starts at or after `P`. -/
theorem shift_starts_ge {n P : Int} {x : Entry} {l : List Entry}
    (h : WFBatch n (x :: l)) (hx : x.processInd = true) (r : List Char)
    (hP : P ≤ x.span.1) :
    ∀ y ∈ l.map (shiftSpan ((r.length : Int) - (x.span.2 - x.span.1))),
      y.processInd = true → P ≤ y.span.1 := by
  intro y hy _
  obtain ⟨z, hz, rfl⟩ := List.mem_map.mp hy
  have hzsep := ((List.pairwise_cons.mp h.pw).1 z hz).2 (Or.inl hx)
  simp only [shiftSpan]
  omega

/-- If every edit of a well-formed sorted batch starts at or after `P`,
the first `P` characters of the document are untouched. -/
theorem applyEdits_take : ∀ (content : List Char) (l : List Entry) (P : Int),
    WFBatch content.length l → 0 ≤ P →
    (∀ x ∈ l, x.processInd = true → P ≤ x.span.1) →
    (applyEdits content l).1.take P.toNat = content.take P.toNat := by
  intro content l
  induction content, l using applyEdits.induct with
  | case1 content => intro P _ _ _; rw [applyEdits]
  | case2 content x rest hx rr dd ih =>
    intro P hwf hP hge
    obtain ⟨hx0, hxlt, hxle⟩ := hwf.ok x (List.mem_cons_self x rest)
    rw [applyEdits, if_pos hx]
    simp only
    have hlen' : ((pySplice content x.span.1 x.span.2 (replText x.key)).length : Int)
        = content.length + (replText x.key).length - (x.span.2 - x.span.1) :=
      length_pySplice hx0 (le_of_lt hxlt) hxle
    have hwf' : WFBatch (pySplice content x.span.1 x.span.2 (replText x.key)).length
        (rest.map (shiftSpan (((replText x.key).length : Int) - (x.span.2 - x.span.1)))) := by
      have hsh := WFBatch_shift hwf hx (replText x.key)
      have heq : (content.length : Int) + ((replText x.key).length : Int)
            - (x.span.2 - x.span.1)
          = ((pySplice content x.span.1 x.span.2 (replText x.key)).length : Int) := by
        omega
      rwa [heq] at hsh
    have hPx : P ≤ x.span.1 := hge x (List.mem_cons_self x rest) hx
    have hge' := shift_starts_ge hwf hx (replText x.key) hPx
    have ihres := ih P hwf' hP hge'
    rw [ihres]
    rw [pySplice_eq hx0 (le_of_lt hxlt) hxle]
    rw [List.append_assoc]
    have h1 : (content.take x.span.1.toNat
          ++ (replText x.key ++ content.drop x.span.2.toNat)).take P.toNat
        = (content.take x.span.1.toNat).take P.toNat :=
      List.take_append_of_le_length (by simp [List.length_take]; omega)
    rw [h1, List.take_take, min_eq_left (by omega)]
  | case3 content x rest hx ih =>
    intro P hwf hP hge
    rw [applyEdits, if_neg hx]
    simp only
    exact ih P (WFBatch_tail hwf) hP
      (fun y hy => hge y (List.mem_cons_of_mem x hy))

/-- Transfer a `Forall₂` over a mapped list back to the original list,
with membership available. -/
theorem forall2_map_left_imp {α β : Type _} {f : α → α} {R S : α → β → Prop} :
    ∀ {l : List α} {l' : List β}, List.Forall₂ R (l.map f) l' →
    (∀ a b, a ∈ l → R (f a) b → S a b) → List.Forall₂ S l l' := by
  intro l
  induction l with
  | nil => intro l' h _; cases h; exact List.Forall₂.nil
  | cons a as ihl =>
    intro l' h himp
    rw [List.map_cons] at h
    cases h with
    | cons hR htail =>
      exact List.Forall₂.cons (himp a _ (List.mem_cons_self a as) hR)
        (ihl htail (fun c b hc => himp c b (List.mem_cons_of_mem a hc)))

/-- A slice lying entirely behind a spliced edit is preserved once its
bounds are shifted by the edit's length delta. -/
theorem pySlice_shift_after_splice {content r : List Char} {x : Entry} {s e : Int}
    (hx0 : 0 ≤ x.span.1) (hxlt : x.span.1 < x.span.2)
    (hxle : x.span.2 ≤ content.length)
    (hs : x.span.2 ≤ s) (hse : s ≤ e) (he : e ≤ content.length) :
    pySlice (pySplice content x.span.1 x.span.2 r)
        (s + ((r.length : Int) - (x.span.2 - x.span.1)))
        (e + ((r.length : Int) - (x.span.2 - x.span.1)))
      = pySlice content s e := by
  rw [pySplice_eq hx0 (le_of_lt hxlt) hxle]
  have hA : (((content.take x.span.1.toNat ++ r)).length : Int)
      = x.span.1 + r.length := by
    simp [List.length_take]
    omega
  have hB : (((content.drop x.span.2.toNat)).length : Int)
      = (content.length : Int) - x.span.2 := by
    simp [List.length_drop]
    omega
  rw [pySlice_append (by omega) (by omega) (by rw [hA, hB]; omega)]
  rw [show s + ((r.length : Int) - (x.span.2 - x.span.1))
        - ((content.take x.span.1.toNat ++ r)).length
      = s - x.span.2 from by omega,
      show e + ((r.length : Int) - (x.span.2 - x.span.1))
        - ((content.take x.span.1.toNat ++ r)).length
      = e - x.span.2 from by omega]
  exact pySlice_drop (by omega) hs hse he

/-- Core offset-correctness induction: in a well-formed sorted batch,
every non-edit entry's final span slices the final text to the same
substring its original span sliced from the original text. -/
theorem applyEdits_slices : ∀ (content : List Char) (l : List Entry),
    WFBatch content.length l →
    List.Forall₂ (fun a b => a.processInd = false →
        pySlice (applyEdits content l).1 b.span.1 b.span.2
          = pySlice content a.span.1 a.span.2)
      l (applyEdits content l).2 := by
  intro content l
  induction content, l using applyEdits.induct with
  | case1 content => intro _; rw [applyEdits]; exact List.Forall₂.nil
  | case2 content x rest hx rr dd ih =>
    intro hwf
    obtain ⟨hx0, hxlt, hxle⟩ := hwf.ok x (List.mem_cons_self x rest)
    have hsep := (List.pairwise_cons.mp hwf.pw).1
    rw [applyEdits, if_pos hx]
    simp only
    refine List.Forall₂.cons ?_ ?_
    · intro hfalse; rw [hx] at hfalse; cases hfalse
    · have hwf' : WFBatch (pySplice content x.span.1 x.span.2 (replText x.key)).length
          (rest.map (shiftSpan (((replText x.key).length : Int) - (x.span.2 - x.span.1)))) := by
        have hsh := WFBatch_shift hwf hx (replText x.key)
        have heq : (content.length : Int) + ((replText x.key).length : Int)
              - (x.span.2 - x.span.1)
            = ((pySplice content x.span.1 x.span.2 (replText x.key)).length : Int) := by
          have := length_pySplice (l := content) (r := replText x.key)
            hx0 (le_of_lt hxlt) hxle
          omega
        rwa [heq] at hsh
      have ihres := ih hwf'
      refine forall2_map_left_imp ihres ?_
      intro a b ha hRab hafalse
      have haok := hwf.ok a (List.mem_cons_of_mem x ha)
      obtain ⟨ha0, halt, hale⟩ := haok
      have hasep := (hsep a ha).2 (Or.inl hx)
      have hR := hRab (by simpa using hafalse)
      rw [hR]
      simp only [shiftSpan_span]
      exact pySlice_shift_after_splice hx0 hxlt hxle hasep (le_of_lt halt) hale
  | case3 content x rest hx ih =>
    intro hwf
    have hxok := hwf.ok x (List.mem_cons_self x rest)
    obtain ⟨hx0, hxlt, hxle⟩ := hxok
    have hsep := (List.pairwise_cons.mp hwf.pw).1
    rw [applyEdits, if_neg hx]
    simp only
    refine List.Forall₂.cons ?_ ?_
    · intro _
      have htake := applyEdits_take content rest x.span.2 (WFBatch_tail hwf)
        (by omega)
        (fun y hy hyed => (hsep y hy).2 (Or.inr hyed))
      have hlenc : x.span.2 ≤ ((applyEdits content rest).1.length : Int) := by
        have hcong := congrArg List.length htake
        simp only [List.length_take] at hcong
        omega
      exact pySlice_congr_take hx0 (le_of_lt hxlt) (le_refl x.span.2)
        hlenc hxle htake
    · exact ih (WFBatch_tail hwf)

/-- Inserting into a list is a permutation of consing. -/
theorem insSorted_perm (le : α → α → Bool) (e : α) :
    ∀ l : List α, (insSorted le e l).Perm (e :: l) := by
  intro l
  induction l with
  | nil => exact List.Perm.refl _
  | cons x xs ih =>
    rw [insSorted]
    split
    · exact List.Perm.refl _
    · exact List.Perm.trans (List.Perm.cons x ih) (List.Perm.swap e x xs)

/-- The stable sort permutes its input. -/
theorem stableSort_perm (le : α → α → Bool) :
    ∀ l : List α, (stableSort le l).Perm l := by
  intro l
  induction l with
  | nil => exact List.Perm.refl _
  | cons x xs ih =>
    exact List.Perm.trans (insSorted_perm le x (stableSort le xs))
      (List.Perm.cons x ih)

/-- Ascending order on span starts. -/
def startLe (a b : Entry) : Prop := a.span.1 ≤ b.span.1

theorem insSorted_pairwise_startLe (e : Entry) :
    ∀ l : List Entry, l.Pairwise startLe →
      (insSorted (fun a b => a.span.1 ≤ b.span.1) e l).Pairwise startLe := by
  intro l
  induction l with
  | nil => intro _; exact List.pairwise_singleton _ _
  | cons x xs ih =>
    intro h
    obtain ⟨hx, hxs⟩ := List.pairwise_cons.mp h
    rw [insSorted]
    by_cases hle : e.span.1 ≤ x.span.1
    · rw [if_pos (by exact decide_eq_true hle)]
      refine List.pairwise_cons.mpr ⟨?_, h⟩
      intro y hy
      rcases List.mem_cons.mp hy with rfl | hy'
      · exact hle
      · exact le_trans hle (hx y hy')
    · rw [if_neg (by simpa using hle)]
      refine List.pairwise_cons.mpr ⟨?_, ih hxs⟩
      intro y hy
      have hy' := (insSorted_perm _ e xs).mem_iff.mp hy
      rcases List.mem_cons.mp hy' with rfl | hy''
      · exact le_of_lt (lt_of_not_le hle)
      · exact hx y hy''

/-- The sorted entry list is ascending in span starts. -/
theorem sortEntries_pairwise_startLe :
    ∀ l : List Entry, (sortEntries l).Pairwise startLe := by
  intro l
  induction l with
  | nil => exact List.Pairwise.nil
  | cons x xs ih => exact insSorted_pairwise_startLe x _ ih

/-- Symmetric batch condition taken from the claim: whenever one of two
entries is an edit, their spans are disjoint. -/
def EditDisjoint (a b : Entry) : Prop :=
  (a.processInd = true ∨ b.processInd = true) →
    (a.span.2 ≤ b.span.1 ∨ b.span.2 ≤ a.span.1)

instance (a b : Entry) : Decidable (EditDisjoint a b) := by
  unfold EditDisjoint; infer_instance

/-- Sorting a batch of in-bound non-empty entries whose edits are
disjoint from everything yields a well-formed sorted batch. -/
theorem WFBatch_sortEntries {content : List Char} {entries : List Entry}
    (hok : ∀ x ∈ entries, SpanOK content.length x)
    (hdisj : entries.Pairwise EditDisjoint) :
    WFBatch content.length (sortEntries entries) := by
  have hperm : (sortEntries entries).Perm entries := stableSort_perm _ entries
  have hok' : ∀ x ∈ sortEntries entries, SpanOK content.length x :=
    fun x hx => hok x (hperm.mem_iff.mp hx)
  have hsym : ∀ {a b : Entry}, EditDisjoint a b → EditDisjoint b a := by
    intro a b h hc
    exact (h hc.symm).symm
  have hdisj' : (sortEntries entries).Pairwise EditDisjoint :=
    (hperm.pairwise_iff fun h => hsym h).mpr hdisj
  refine ⟨hok', ?_⟩
  have hcomb := (sortEntries_pairwise_startLe entries).and hdisj'
  refine hcomb.imp_of_mem ?_
  intro a b ha hb hab
  refine ⟨hab.1, ?_⟩
  intro hc
  obtain ⟨_, hblt, _⟩ := hok' b hb
  have hd : a.span.2 ≤ b.span.1 ∨ b.span.2 ≤ a.span.1 := hab.2 hc
  rcases hd with h | h
  · exact h
  · exfalso
    have hle := hab.1
    unfold startLe at hle
    omega

/-- C1 (amended): for every document and every batch whose entries have
non-empty in-bound spans and in which any entry pair containing an edit
has disjoint spans, running the replacement phase of
`refactor_component` leaves, for every candidate not consumed by an
edit, the substring of the new document at its updated span equal to
the substring of the old document at its original span. -/
theorem c1_offset_correctness (content : List Char) (entries : List Entry)
    (hok : ∀ x ∈ entries, SpanOK content.length x)
    (hdisj : entries.Pairwise EditDisjoint) :
    List.Forall₂ (fun a b => a.processInd = false →
        pySlice (refactor_replace content entries).1 b.span.1 b.span.2
          = pySlice content a.span.1 a.span.2)
      (sortEntries entries) (refactor_replace content entries).2 :=
  applyEdits_slices content (sortEntries entries)
    (WFBatch_sortEntries hok hdisj)

/-- Witness for C1: the law evaluated on the spec's worked-example data
(one edit over `[0,11)`, one observer at `[12,17)`). -/
theorem c1_offset_correctness_witness :
    List.Forall₂ (fun a b => a.processInd = false →
        pySlice (refactor_replace "Hello World today".data
            [⟨"greeting".data, true, (0, 11)⟩,
             ⟨"todaykey".data, false, (12, 17)⟩]).1 b.span.1 b.span.2
          = pySlice "Hello World today".data a.span.1 a.span.2)
      (sortEntries [⟨"greeting".data, true, (0, 11)⟩,
             ⟨"todaykey".data, false, (12, 17)⟩])
      (refactor_replace "Hello World today".data
            [⟨"greeting".data, true, (0, 11)⟩,
             ⟨"todaykey".data, false, (12, 17)⟩]).2 :=
  c1_offset_correctness "Hello World today".data
    [⟨"greeting".data, true, (0, 11)⟩, ⟨"todaykey".data, false, (12, 17)⟩]
    (by decide) (by decide)

/-- C1 (counterexample to the claim as stated): with a single edit (so
the batch trivially has pairwise non-overlapping edit spans) and an
observer whose span overlaps the edit, the observer's updated span does
not slice the original substring: the code shifts it by the full delta
and its text is corrupted. -/
theorem c1_claim_counterexample :
    (refactor_replace "abcdef".data
        [⟨"k".data, true, (0, 4)⟩, ⟨"o".data, false, (2, 5)⟩]).2.map Entry.span
      = [(0, 4), (6, 9)]
    ∧ pySlice (refactor_replace "abcdef".data
        [⟨"k".data, true, (0, 4)⟩, ⟨"o".data, false, (2, 5)⟩]).1 6 9
      ≠ pySlice "abcdef".data 2 5 := by
  constructor <;>
    simp [refactor_replace, sortEntries, stableSort, insSorted, applyEdits,
      shiftSpan, pySplice, pySlice, pyIndex, replText, lbrace, squote, rbrace]

/-- Every edit-free batch is returned untouched by the loop. -/
theorem applyEdits_all_obs : ∀ (content : List Char) (l : List Entry),
    (∀ y ∈ l, y.processInd = false) → applyEdits content l = (content, l) := by
  intro content l
  induction l with
  | nil => intro _; rw [applyEdits]
  | cons x xs ih =>
    intro h
    have hx : ¬ x.processInd = true := by
      simp [h x (List.mem_cons_self x xs)]
    rw [applyEdits, if_neg hx, ih (fun y hy => h y (List.mem_cons_of_mem x hy))]

/-- C3 (amended): one edit among observers: the edit splices its
replacement over its span and shifts, by exactly the length excess
`L = len(replacement) − width`, the spans of exactly the observers
recorded after it in the sorted order (in particular every observer
with start strictly greater than the edit's start), while every
observer before it — including one starting exactly at the edit's
start but sorted earlier — is left completely unchanged. -/
theorem c3_insertion_shift (content : List Char) (pre post : List Entry)
    (x : Entry)
    (hpre : ∀ y ∈ pre, y.processInd = false)
    (hpost : ∀ y ∈ post, y.processInd = false)
    (hx : x.processInd = true) :
    applyEdits content (pre ++ x :: post)
      = (pySplice content x.span.1 x.span.2 (replText x.key),
         pre ++ x :: post.map (shiftSpan
           (((replText x.key).length : Int) - (x.span.2 - x.span.1)))) := by
  induction pre with
  | nil =>
    simp only [List.nil_append]
    rw [applyEdits, if_pos hx]
    simp only
    rw [applyEdits_all_obs _ _ (fun y hy => by
      obtain ⟨z, hz, rfl⟩ := List.mem_map.mp hy
      simp [hpost z hz])]
  | cons a as ih =>
    have ha : ¬ a.processInd = true := by
      simp [hpre a (List.mem_cons_self a as)]
    simp only [List.cons_append]
    rw [applyEdits, if_neg ha]
    simp only
    rw [ih (fun y hy => hpre y (List.mem_cons_of_mem a hy))]

/-- Witness for C3: an edit of excess length `+6` at `[6,8)` between an
observer at `[1,3)` (unchanged) and an observer at `[9,12)` (shifted to
`[15,18)`). -/
theorem c3_insertion_shift_witness :
    applyEdits "abcdefghijklmnop".data
        [⟨"p".data, false, (1, 3)⟩, ⟨"k".data, true, (6, 8)⟩,
         ⟨"q".data, false, (9, 12)⟩]
      = (pySplice "abcdefghijklmnop".data 6 8 (replText "k".data),
         [⟨"p".data, false, (1, 3)⟩, ⟨"k".data, true, (6, 8)⟩,
          ⟨"q".data, false, (9 + 6, 12 + 6)⟩]) :=
  c3_insertion_shift "abcdefghijklmnop".data
    [⟨"p".data, false, (1, 3)⟩] [⟨"q".data, false, (9, 12)⟩]
    ⟨"k".data, true, (6, 8)⟩ (by decide) (by decide) (by decide)

/-- C3 (counterexample to the claim as stated): an observer recorded
before the edit in the registry, starting exactly at the edit's point
`P = 2`, is not shifted at all even though the edit's length excess is
`L = 6 ≠ 0` and the observer's start satisfies `start ≥ P`. -/
theorem c3_claim_counterexample :
    ((replText "k".data).length : Int) - ((4 : Int) - 2) = 6
    ∧ (refactor_replace "abcdef".data
        [⟨"o".data, false, (2, 3)⟩, ⟨"k".data, true, (2, 4)⟩]).2.map Entry.span
      = [(2, 3), (2, 4)]
    ∧ ((2 : Int), (3 : Int)) ≠ ((2 + 6 : Int), (3 + 6 : Int)) := by
  refine ⟨by decide, ?_, by decide⟩
  simp [refactor_replace, sortEntries, stableSort, insSorted, applyEdits,
    shiftSpan, pySplice, pySlice, pyIndex, replText, lbrace, squote, rbrace]

/-- C4 (amended): the worked example with the numbers the code actually
produces: `"Hello World today"` has length 17; the replacement
`{t('greeting')}` has length 15 so the delta is `+4`; the document
becomes `{t('greeting')} today`; the observer span `(12,17)` becomes
`(16,21)` and slices `"today"` from the new document. -/
theorem c4_worked_example :
    "Hello World today".data.length = 17
    ∧ (replText "greeting".data).length = 15
    ∧ ((replText "greeting".data).length : Int) - ((11 : Int) - 0) = 4
    ∧ (refactor_replace "Hello World today".data
        [⟨"greeting".data, true, (0, 11)⟩,
         ⟨"todaykey".data, false, (12, 17)⟩]).1
      = replText "greeting".data ++ " today".data
    ∧ (refactor_replace "Hello World today".data
        [⟨"greeting".data, true, (0, 11)⟩,
         ⟨"todaykey".data, false, (12, 17)⟩]).2.map Entry.span
      = [(0, 11), (16, 21)]
    ∧ pySlice (refactor_replace "Hello World today".data
        [⟨"greeting".data, true, (0, 11)⟩,
         ⟨"todaykey".data, false, (12, 17)⟩]).1 16 21
      = "today".data := by
  refine ⟨by decide, by decide, by decide, ?_, ?_, ?_⟩ <;>
    simp [refactor_replace, sortEntries, stableSort, insSorted, applyEdits,
      shiftSpan, pySplice, pySlice, pyIndex, replText, lbrace, squote, rbrace]

/-- C4 (counterexample to the claim as stated): the claim's numbers are
off by one: the document has length 17 (not 18), the replacement has
length 15 (not 16), and the propagated observer span is `(16,21)`, not
`(17,22)`. -/
theorem c4_claim_counterexample :
    (refactor_replace "Hello World today".data
        [⟨"greeting".data, true, (0, 11)⟩,
         ⟨"todaykey".data, false, (12, 17)⟩]).2.map Entry.span
      = [(0, 11), (16, 21)]
    ∧ ¬ ("Hello World today".data.length = 18
          ∧ (replText "greeting".data).length = 16
          ∧ (refactor_replace "Hello World today".data
              [⟨"greeting".data, true, (0, 11)⟩,
               ⟨"todaykey".data, false, (12, 17)⟩]).2.map Entry.span
            = [(0, 11), (17, 22)]) := by
  constructor
  · simp [refactor_replace, sortEntries, stableSort, insSorted, applyEdits,
      shiftSpan, pySplice, pySlice, pyIndex, replText, lbrace, squote, rbrace]
  · intro hcl
    exact absurd hcl.1 (by decide)

/-!
## The splice loop of `ComplexI18nProcessor._update_files`

A change is a pair of the original span and the replacement code.  The
loop sorts the changes by span start (`changes.sort(key=lambda x:
x[0][0])`, stable), then walks them with a running `offset`, splicing
each change at its offset-adjusted span.
-/

/-- The `for span, new_code in changes` loop of `_update_files`
(lines 281-293): splice each change at `(start+offset, end+offset)` and
grow the offset by the length delta. -/
def update_files_loop : List Char → Int → List ((Int × Int) × List Char) → List Char
  | text, _, [] => text
  | text, off, ((s, e), code) :: rest =>
    update_files_loop (pySplice text (s + off) (e + off) code)
      (off + (code.length : Int) - (e - s)) rest

/-- The per-file body of `_update_files`: sort ascending by span start,
then run the offset loop starting from `offset = 0`. -/
def update_files_apply (text : List Char)
    (changes : List ((Int × Int) × List Char)) : List Char :=
  update_files_loop text 0 (stableSort (fun a b => a.1.1 ≤ b.1.1) changes)

/-- C2: `_update_files` has no overlap check: on a 10-character document
with the overlapping spans `(0,5)` and `(3,8)` of the claim, it silently
applies both edits and rewrites the document (to `"XPQ89"` for the
replacements `"XYZ"` and `"PQ"`), instead of raising
`PatchConflictError` — which exists nowhere in the code — and leaving
the document unmodified. -/
theorem c2_overlap_not_rejected :
    update_files_apply "0123456789".data
        [((0, 5), "XYZ".data), ((3, 8), "PQ".data)]
      = "XPQ89".data
    ∧ update_files_apply "0123456789".data
        [((0, 5), "XYZ".data), ((3, 8), "PQ".data)]
      ≠ "0123456789".data := by
  decide

/-!
## `I18nAgent.find_function_end` and the per-unit hook insertion of
`I18nAgent.add_translation_hooks`
-/

/-- One step of the nested-brace counter of `find_function_end`. -/
def braceStep (count : Nat) (c : Char) : Nat :=
  if c = lbrace then count + 1 else if c = rbrace then count - 1 else count

/-- The `while pos < len(content) and brace_count > 0` loop of
`find_function_end`, recursing over the suffix `content[pos:]`. -/
def ffe_go : List Char → Nat → Nat → Nat
  | [], pos, _ => pos
  | c :: rest, pos, count =>
    if count = 0 then pos
    else ffe_go rest (pos + 1) (braceStep count c)

/-- `find_function_end(content, start_pos)`: scan forward from
`start_pos + 1` with brace depth starting at 1. -/
def find_function_end (content : List Char) (start_pos : Nat) : Nat :=
  ffe_go (content.drop (start_pos + 1)) (start_pos + 1) 1

/-- Brace depth after a list of characters. -/
def depthFold (l : List Char) (count : Nat) : Nat := l.foldl braceStep count

theorem ffe_go_ge : ∀ (l : List Char) (pos count : Nat),
    pos ≤ ffe_go l pos count := by
  intro l
  induction l with
  | nil => intro pos count; exact le_refl pos
  | cons c rest ih =>
    intro pos count
    rw [ffe_go]
    split
    · exact le_refl pos
    · exact le_trans (Nat.le_succ pos) (ih (pos + 1) _)

theorem ffe_go_le : ∀ (l : List Char) (pos count : Nat),
    ffe_go l pos count ≤ pos + l.length := by
  intro l
  induction l with
  | nil => intro pos count; simp [ffe_go]
  | cons c rest ih =>
    intro pos count
    rw [ffe_go]
    split
    · simp
    · have := ih (pos + 1) (braceStep count c)
      simp only [List.length_cons]
      omega

/-- While the depth stays positive through `l`, the scan passes over all
of `l` and continues into `m`. -/
theorem ffe_go_append_no_zero : ∀ (l m : List Char) (pos count : Nat),
    (∀ k, k < l.length → depthFold (l.take k) count ≠ 0) →
    ffe_go (l ++ m) pos count = ffe_go m (pos + l.length) (depthFold l count) := by
  intro l
  induction l with
  | nil => intro m pos count _; simp [depthFold]
  | cons c rest ih =>
    intro m pos count h
    have h0 : count ≠ 0 := by
      have := h 0 (by simp)
      simpa [depthFold] using this
    rw [List.cons_append, ffe_go, if_neg h0]
    rw [ih m (pos + 1) (braceStep count c) ?_]
    · simp only [List.length_cons, depthFold, List.foldl_cons]
      congr 1
      omega
    · intro k hk
      have := h (k + 1) (by simp; omega)
      simpa [depthFold, List.take_succ_cons] using this

/-- C10 (amended): for a start position strictly inside the content,
`find_function_end` terminates (it is a total function) and returns at
most `len(content)`; if the depth never returns to zero it returns
exactly `len(content)`. -/
theorem c10_brace_scan_bounded (content : List Char) (start_pos : Nat)
    (h : start_pos < content.length) :
    find_function_end content start_pos ≤ content.length
    ∧ ((∀ k, k ≤ (content.drop (start_pos + 1)).length →
          depthFold ((content.drop (start_pos + 1)).take k) 1 ≠ 0) →
        find_function_end content start_pos = content.length) := by
  constructor
  · unfold find_function_end
    have := ffe_go_le (content.drop (start_pos + 1)) (start_pos + 1) 1
    simp only [List.length_drop] at this
    omega
  · intro hz
    unfold find_function_end
    have happ := ffe_go_append_no_zero (content.drop (start_pos + 1)) []
      (start_pos + 1) 1 (fun k hk => hz k (le_of_lt hk))
    rw [List.append_nil] at happ
    rw [happ, ffe_go]
    simp only [List.length_drop]
    omega

/-- Witness for C10 at `['a','{','b']`, start `0`: the braces never
rebalance and the scan returns the full length 3. -/
theorem c10_brace_scan_bounded_witness :
    find_function_end ['a', lbrace, 'b'] 0 ≤ (['a', lbrace, 'b'] : List Char).length
    ∧ ((∀ k, k ≤ ((['a', lbrace, 'b'] : List Char).drop 1).length →
          depthFold (((['a', lbrace, 'b'] : List Char).drop 1).take k) 1 ≠ 0) →
        find_function_end ['a', lbrace, 'b'] 0
          = (['a', lbrace, 'b'] : List Char).length) :=
  c10_brace_scan_bounded ['a', lbrace, 'b'] 0 (by decide)

/-- C10 (counterexample to the claim as stated): at start position 0 on
the empty content — whose depth trivially never returns to zero — the
function returns `start_pos + 1 = 1`, which exceeds `len(content) = 0`. -/
theorem c10_claim_counterexample :
    find_function_end [] 0 = 1 ∧ ¬ (1 ≤ ([] : List Char).length) := by
  decide

/-- Python `\s` (ASCII range): space, tab, newline, carriage return,
vertical tab, form feed. -/
def isPyWS (c : Char) : Bool :=
  c = ' ' || c = '\t' || c = '\n' || c = '\r' || c = Char.ofNat 11 || c = Char.ofNat 12

/-- The hook line inserted by `add_translation_hooks`:
`"\n  const { t } = useTranslation();\n"`. -/
def hookLine : List Char :=
  '\n' :: ' ' :: ' ' ::
    ("const ".data ++ [lbrace] ++ " t ".data ++ [rbrace]
      ++ " = useTranslation();\n".data)

/-- The idempotence marker: `'useTranslation'`. -/
def marker : List Char := "useTranslation".data

/-- `re.search(r'return\s*' + c, body)`: somewhere in `body`, the word
`return`, optional whitespace, then the character `c`. -/
def searchReturnThen (c : Char) (body : List Char) : Bool :=
  (List.range (body.length + 1)).any fun i =>
    startsWith "return".data (body.drop i) &&
      (match (body.drop (i + 6)).dropWhile isPyWS with
       | d :: _ => d = c
       | [] => false)

/-- `re.search(r'<[A-Z]...'` / `r'<[a-z]+'`: a `<` followed by a letter
accepted by `p`. -/
def searchLtPred (p : Char → Bool) (body : List Char) : Bool :=
  (List.range body.length).any fun i =>
    match body.drop i with
    | a :: d :: _ => a = '<' && p d
    | _ => false

/-- The `jsx_patterns` check of `add_translation_hooks`
(lines 385-394). -/
def hasJSX (body : List Char) : Bool :=
  searchReturnThen '(' body || searchReturnThen '<' body
    || searchLtPred Char.isUpper body || searchLtPred Char.isLower body
    || containsSub "className=".data body || containsSub "onClick=".data body

/-- Python `l[s:e]` for non-negative indices. -/
def sliceN (l : List Char) (s e : Nat) : List Char := (l.take e).drop s

/-- The per-unit body of `add_translation_hooks` (lines 376-400), given
the computed insertion position `insert_pos` (one past the unit's
opening brace): find the unit's end, skip if the marker is already in
the unit body, otherwise insert the hook line at `insert_pos` when the
body looks like JSX. -/
def add_hooks_unit (content : List Char) (insert_pos : Nat) : List Char × Bool :=
  let component_end := find_function_end content (insert_pos - 1)
  let body := sliceN content insert_pos component_end
  if containsSub marker body then (content, false)
  else if hasJSX body then
    (content.take insert_pos ++ hookLine ++ content.drop insert_pos, true)
  else (content, false)

theorem startsWith_append_left [DecidableEq α] :
    ∀ {p l : List α} (m : List α), startsWith p l = true →
      startsWith p (l ++ m) = true := by
  intro p
  induction p with
  | nil => intro l m _; rw [startsWith]
  | cons a as ih =>
    intro l m h
    cases l with
    | nil => exact absurd h (by rw [startsWith]; simp)
    | cons b bs =>
      rw [startsWith] at h
      rw [List.cons_append, startsWith]
      rw [Bool.and_eq_true] at h ⊢
      exact ⟨h.1, ih m h.2⟩

theorem containsSub_of_isSubAt [DecidableEq α] {pat s : List α} {i : Nat}
    (hi : i ≤ s.length) (h : isSubAt pat s i = true) :
    containsSub pat s = true := by
  unfold containsSub
  rw [List.any_eq_true]
  exact ⟨i, List.mem_range.mpr (by omega), h⟩

/-- C7: per-unit idempotence of the hook insertion.  If the marker is
already in the unit body, nothing is inserted; and in all cases running
the insertion step a second time on its own output changes nothing (the
inserted hook line contains the marker and the brace scan keeps the
whole hook line inside the unit body). -/
theorem c7_insertion_idempotent (content : List Char) (p : Nat)
    (h1 : 1 ≤ p) (h2 : p ≤ content.length) :
    (containsSub marker (sliceN content p (find_function_end content (p - 1))) = true →
        add_hooks_unit content p = (content, false))
    ∧ add_hooks_unit (add_hooks_unit content p).1 p
        = ((add_hooks_unit content p).1, false) := by
  constructor
  · intro hm
    simp [add_hooks_unit, hm]
  · by_cases hm : containsSub marker
        (sliceN content p (find_function_end content (p - 1))) = true
    · have hfirst : add_hooks_unit content p = (content, false) := by
        simp [add_hooks_unit, hm]
      rw [hfirst]
      simp [add_hooks_unit, hm]
    · by_cases hj : hasJSX (sliceN content p (find_function_end content (p - 1))) = true
      · have h35 : hookLine.length = 35 := by decide
        have hfirst : add_hooks_unit content p
            = (content.take p ++ hookLine ++ content.drop p, true) := by
          simp [add_hooks_unit, hm, hj]
        rw [hfirst]
        have hlen : (content.take p).length = p := by
          simp [List.length_take]; omega
        have hdrop : (content.take p ++ hookLine ++ content.drop p).drop p
            = hookLine ++ content.drop p := by
          rw [List.append_assoc]
          exact List.drop_left' hlen
        have hffe : find_function_end (content.take p ++ hookLine ++ content.drop p) (p - 1)
            = ffe_go (content.drop p) (p + hookLine.length) (depthFold hookLine 1) := by
          unfold find_function_end
          have hp1 : p - 1 + 1 = p := by omega
          rw [hp1, hdrop, ffe_go_append_no_zero _ _ _ _ (by decide)]
        have hge : p + hookLine.length
            ≤ find_function_end (content.take p ++ hookLine ++ content.drop p) (p - 1) := by
          rw [hffe]; exact ffe_go_ge _ _ _
        have hbody : sliceN (content.take p ++ hookLine ++ content.drop p) p
              (find_function_end (content.take p ++ hookLine ++ content.drop p) (p - 1))
            = hookLine ++ (content.drop p).take
                (find_function_end (content.take p ++ hookLine ++ content.drop p) (p - 1)
                  - p - hookLine.length) := by
          unfold sliceN
          rw [List.drop_take, hdrop, List.take_append_eq_append_take]
          rw [List.take_of_length_le (show hookLine.length
            ≤ find_function_end (content.take p ++ hookLine ++ content.drop p) (p - 1) - p
            from by omega)]
        have hmark : containsSub marker
            (sliceN (content.take p ++ hookLine ++ content.drop p) p
              (find_function_end (content.take p ++ hookLine ++ content.drop p) (p - 1)))
            = true := by
          rw [hbody]
          refine containsSub_of_isSubAt (i := 17)
            (by simp only [List.length_append, h35]; omega) ?_
          unfold isSubAt
          rw [List.drop_append_eq_append_drop]
          apply startsWith_append_left
          decide
        simp only [add_hooks_unit]
        rw [hmark]
        simp
      · have hfirst : add_hooks_unit content p = (content, false) := by
          simp [add_hooks_unit, hm, hj]
        rw [hfirst]
        simp [add_hooks_unit, hm, hj]

/-- Witness for C7: a concrete unit `function App() { return (1) }`
with insert position 16 (just after the opening brace). -/
theorem c7_insertion_idempotent_witness :
    (containsSub marker (sliceN ("function App() ".data ++ [lbrace]
          ++ " return (1) ".data ++ [rbrace]) 16
        (find_function_end ("function App() ".data ++ [lbrace]
          ++ " return (1) ".data ++ [rbrace]) (16 - 1))) = true →
      add_hooks_unit ("function App() ".data ++ [lbrace]
          ++ " return (1) ".data ++ [rbrace]) 16
        = (("function App() ".data ++ [lbrace]
          ++ " return (1) ".data ++ [rbrace]), false))
    ∧ add_hooks_unit (add_hooks_unit ("function App() ".data ++ [lbrace]
          ++ " return (1) ".data ++ [rbrace]) 16).1 16
      = ((add_hooks_unit ("function App() ".data ++ [lbrace]
          ++ " return (1) ".data ++ [rbrace]) 16).1, false) :=
  c7_insertion_idempotent _ 16 (by decide) (by decide)

/-!
## `I18nAgent.should_translate` and candidate recording

The Python function returns one of four values: the booleans
`False`/`True` and the strings `'False'`/`'Maybe'`.  The regexes of the
cascade are embedded as recognizers over ASCII text.
-/

/-- Python `\w` (ASCII): letters, digits, underscore. -/
def isWordChar (c : Char) : Bool := c.isAlpha || c.isDigit || c = '_'

/-- The character class `[\w\s,]` of the arrow pattern. -/
def isArrowMid (c : Char) : Bool := isWordChar c || isPyWS c || c = ','

/-- `\(?[\w\s,]*\)?`: an optional opening paren, class characters, an
optional closing paren.  Neither paren belongs to the class, so the
optional strips are exact. -/
def midMatch (m : List Char) : Bool :=
  let m1 := match m with | '(' :: t => t | _ => m
  let m2 := match m1.reverse with | ')' :: t => t.reverse | _ => m1
  m2.all isArrowMid

/-- `\s*\(?[\w\s,]*\)?\s*`, tried over all split points. -/
def arrowPrefixOK (p : List Char) : Bool :=
  (List.range (p.length + 1)).any fun i =>
    (List.range (p.length + 1 - i)).any fun k =>
      ((p.take i).all isPyWS) && midMatch ((p.drop i).take k)
        && ((p.drop (i + k)).all isPyWS)

/-- `re.fullmatch(r'\s*\(?[\w\s,]*\)?\s*=>.*', text)`: an arrow prefix,
the token `=>`, then any characters not containing a newline (`.` does
not match `\n`). -/
def arrowFullmatch (t : List Char) : Bool :=
  (List.range (t.length + 1)).any fun i =>
    arrowPrefixOK (t.take i) && startsWith ['=', '>'] (t.drop i)
      && ((t.drop (i + 2)).all (fun c => !(c = '\n')))

/-- The class `[\d\s\.,:;!?\-]` of the digits/punctuation pattern. -/
def isNumPunc (c : Char) : Bool :=
  c.isDigit || isPyWS c || c = '.' || c = ',' || c = ':' || c = ';'
    || c = '!' || c = '?' || c = '-'

/-- `["']`: either quote character. -/
def isQuoteChar (c : Char) : Bool := c = '"' || c = squote

/-- `re.fullmatch(r't\(\s*["\x27]([^"\x27]+)["\x27]\s*\)', text)`. -/
def tCallFullmatch (t : List Char) : Bool :=
  match t with
  | 't' :: '(' :: rest =>
    (match rest.dropWhile isPyWS with
     | q1 :: r2 =>
       isQuoteChar q1 &&
         ((!(r2.takeWhile (fun c => !(isQuoteChar c))).isEmpty) &&
           (match r2.dropWhile (fun c => !(isQuoteChar c)) with
            | q2 :: r4 => isQuoteChar q2 && ((r4.dropWhile isPyWS) = [')'])
            | [] => false))
     | [] => false)
  | _ => false

/-- Tail of an `^X.*Y$` pattern after the opening character: one
optional trailing newline, then the closing character, with a
newline-free middle (`.` does not match `\n`, `$` also matches just
before a final newline). -/
def wrapTail (closec : Char) (rest : List Char) : Bool :=
  let r := match rest.reverse with | '\n' :: t => t.reverse | _ => rest
  match r.reverse with
  | c :: t => c = closec && (t.reverse.all (fun d => !(d = '\n')))
  | [] => false

/-- `re.match(r'^\{.*\}$', text)`. -/
def matchBraceWrap (t : List Char) : Bool :=
  match t with
  | c :: rest => c = lbrace && wrapTail rbrace rest
  | [] => false

/-- `re.match(r'^\$\{.*\}$', text)`. -/
def matchDollarBrace (t : List Char) : Bool :=
  match t with
  | a :: b :: rest => a = '$' && b = lbrace && wrapTail rbrace rest
  | _ => false

/-- `re.match(r'^\(.*\)$', text)`. -/
def matchParenWrap (t : List Char) : Bool :=
  match t with
  | c :: rest => c = '(' && wrapTail ')' rest
  | [] => false

/-- The backtick-wrap pattern. -/
def matchBacktickWrap (t : List Char) : Bool :=
  match t with
  | c :: rest => c = backq && wrapTail backq rest
  | [] => false

/-- `re.match(r'^(const|let|var|function)\b', text)` for one keyword. -/
def kwHead (kw t : List Char) : Bool :=
  startsWith kw t &&
    (match t.drop kw.length with
     | c :: _ => !(isWordChar c)
     | [] => true)

/-- The `code_like_patterns` loop (lines 172-181). -/
def code_like_match (t : List Char) : Bool :=
  matchBraceWrap t || matchDollarBrace t || matchParenWrap t
    || matchBacktickWrap t || kwHead "const".data t || kwHead "let".data t
    || kwHead "var".data t || kwHead "function".data t

/-- The `code_indicators` membership check (lines 184-186). -/
def code_indicator (t : List Char) : Bool :=
  containsSub [lbrace] t || containsSub [rbrace] t || containsSub ['('] t
    || containsSub [')'] t || containsSub ['=', '>'] t
    || containsSub "function".data t || containsSub "const".data t
    || containsSub "let".data t || containsSub "var".data t
    || containsSub ['$'] t || containsSub [backq] t

/-- The four values `should_translate` can return: the booleans
`False`/`True` and the strings `'False'`/`'Maybe'`. -/
inductive STResult where
  | pyFalse
  | pyStrFalse
  | pyStrMaybe
  | pyTrue
deriving DecidableEq

/-- `I18nAgent.should_translate` (lines 149-188), cascade order as in
the source: length guard, arrow shape (returning the *string*
`'False'`), digits/punctuation, already-migrated `t('...')`,
code-like wrappers, code indicators, otherwise `True`. -/
def should_translate (text : List Char) : STResult :=
  if text.length < 2 then .pyFalse
  else if containsSub ['=', '>'] text && arrowFullmatch text then .pyStrFalse
  else if text.all isNumPunc then .pyFalse
  else if tCallFullmatch text then .pyFalse
  else if code_like_match text then .pyStrMaybe
  else if code_indicator text then .pyStrMaybe
  else .pyTrue

/-- Python truthiness of the returned value: only the boolean `False`
is falsy; the non-empty strings `'False'` and `'Maybe'` are truthy. -/
def pyTruthy : STResult → Bool
  | .pyFalse => false
  | _ => true

/-- What `extract_strings_from_file` (lines 137-147) stores for a text:
`none` when no candidate is recorded, `some true` for
`process_ind = 'True'`, `some false` for `process_ind = 'Maybe'`. -/
def recorded_process_ind (text : List Char) : Option Bool :=
  if pyTruthy (should_translate text) then
    some (!(should_translate text = STResult.pyStrMaybe))
  else none

/-- C5: on the purely-arrow-shaped text `"() => x"` (length ≥ 2, not
purely digits/punctuation, full arrow match) `should_translate` returns
the *string* `'False'`, which is truthy, so the extractor records a
candidate with `process_ind = 'True'` instead of rejecting it. -/
theorem c5_arrow_shape_recorded :
    arrowFullmatch "() => x".data = true
    ∧ 2 ≤ "() => x".data.length
    ∧ "() => x".data.all isNumPunc = false
    ∧ should_translate "() => x".data = STResult.pyStrFalse
    ∧ recorded_process_ind "() => x".data = some true := by
  decide

/-!
## `I18nAgent.generate_translations` / `generate_language_translations`

Python dicts are modelled as ordered association lists with
overwrite-in-place (`setKey`); `dict.update` folds `setKey` over the
new pairs.  The external LLM call plus `json.loads` is a parameter
returning `Except` — any exception takes the fallback branch.
-/

/-- Ordered-dict lookup. -/
def getVal [DecidableEq κ] : List (κ × ν) → κ → Option ν
  | [], _ => none
  | (k, v) :: rest, key => if key = k then some v else getVal rest key

/-- Ordered-dict store: overwrite in place, else append. -/
def setKey [DecidableEq κ] : List (κ × ν) → κ → ν → List (κ × ν)
  | [], key, val => [(key, val)]
  | (k, v) :: rest, key, val =>
    if key = k then (key, val) :: rest else (k, v) :: setKey rest key val

/-- Python `dict.update`. -/
def dictUpdate [DecidableEq κ] (base upd : List (κ × ν)) : List (κ × ν) :=
  upd.foldl (fun acc kv => setKey acc kv.1 kv.2) base

/-- `range(0, len(keys), 20)` batching with `batch_size = 20`. -/
def chunks20 : List α → List (List α)
  | [] => []
  | a :: rest => ((a :: rest).take 20) :: chunks20 ((a :: rest).drop 20)
termination_by l => l.length
decreasing_by simp_wf; omega

/-- `I18nAgent.generate_language_translations` (lines 217-256): take the
first 20 keys (the `#TODO: batch_size` slice), process them in batches
of 20; on success merge the parsed response, on any exception fall back
to the source text for each key of the batch. -/
def generate_language_translations
    (tkeys : List (List Char × List Char))
    (call : List (List Char × List Char) → Except Unit (List (List Char × List Char))) :
    List (List Char × List Char) :=
  (chunks20 ((tkeys.map Prod.fst).take 20)).foldl
    (fun acc batch_keys =>
      match call (batch_keys.map (fun k => (k, (getVal tkeys k).getD []))) with
      | .ok parsed => dictUpdate acc parsed
      | .error _ => dictUpdate acc (batch_keys.map (fun k => (k, (getVal tkeys k).getD []))))
    []

/-- `I18nAgent.generate_translations` (lines 206-215): the default
language gets the source texts; every other language is translated
independently via `generate_language_translations`. -/
def generate_translations (defaultLang : List Char)
    (target_languages : List (List Char))
    (tkeys : List (List Char × List Char))
    (call : List Char → List (List Char × List Char)
      → Except Unit (List (List Char × List Char))) :
    List (List Char × List (List Char × List Char)) :=
  target_languages.map (fun lang =>
    (lang, if lang = defaultLang then dictUpdate [] tkeys
           else generate_language_translations tkeys (call lang)))

theorem dictUpdate_cons [DecidableEq κ] (m : List (κ × ν)) (k : κ) (v : ν)
    (rest : List (κ × ν)) :
    dictUpdate m ((k, v) :: rest) = dictUpdate (setKey m k v) rest := rfl

theorem getVal_setKey_self [DecidableEq κ] (k : κ) (v : ν) :
    ∀ m : List (κ × ν), getVal (setKey m k v) k = some v := by
  intro m
  induction m with
  | nil => simp [setKey, getVal]
  | cons kv rest ih =>
    obtain ⟨k', v'⟩ := kv
    rw [setKey]
    by_cases h : k = k'
    · rw [if_pos h, getVal, if_pos rfl]
    · rw [if_neg h, getVal, if_neg h]
      exact ih

theorem getVal_setKey_ne [DecidableEq κ] {k k' : κ} (v : ν) (h : k ≠ k') :
    ∀ m : List (κ × ν), getVal (setKey m k' v) k = getVal m k := by
  intro m
  induction m with
  | nil => simp [setKey, getVal, h]
  | cons kv rest ih =>
    obtain ⟨k0, v0⟩ := kv
    rw [setKey]
    by_cases h0 : k' = k0
    · rw [if_pos h0, getVal, if_neg (h0 ▸ h), getVal, if_neg (h0 ▸ h)]
    · rw [if_neg h0, getVal, getVal]
      by_cases h1 : k = k0
      · rw [if_pos h1, if_pos h1]
      · rw [if_neg h1, if_neg h1]
        exact ih

theorem getVal_dictUpdate_not_mem [DecidableEq κ] {k : κ} :
    ∀ (upd m : List (κ × ν)), k ∉ upd.map Prod.fst →
      getVal (dictUpdate m upd) k = getVal m k := by
  intro upd
  induction upd with
  | nil => intro m _; rfl
  | cons kv rest ih =>
    intro m hk
    obtain ⟨k', v'⟩ := kv
    rw [List.map_cons, List.mem_cons] at hk
    push_neg at hk
    rw [dictUpdate_cons, ih (setKey m k' v') hk.2]
    exact getVal_setKey_ne v' hk.1 m

theorem getVal_dictUpdate_mem [DecidableEq κ] {k : κ} {t : ν} :
    ∀ (upd m : List (κ × ν)), (upd.map Prod.fst).Nodup → (k, t) ∈ upd →
      getVal (dictUpdate m upd) k = some t := by
  intro upd
  induction upd with
  | nil => intro m _ hmem; cases hmem
  | cons kv rest ih =>
    intro m hnd hmem
    obtain ⟨k', v'⟩ := kv
    rw [List.map_cons, List.nodup_cons] at hnd
    rcases List.mem_cons.mp hmem with heq | hmem'
    · injection heq with h1 h2
      subst h1
      subst h2
      rw [dictUpdate_cons, getVal_dictUpdate_not_mem rest (setKey m k t) hnd.1]
      exact getVal_setKey_self k t m
    · rw [dictUpdate_cons]
      exact ih (setKey m k' v') hnd.2 hmem'

theorem getVal_of_mem_nodup [DecidableEq κ] {k : κ} {t : ν} :
    ∀ tkeys : List (κ × ν), (tkeys.map Prod.fst).Nodup → (k, t) ∈ tkeys →
      getVal tkeys k = some t := by
  intro tkeys
  induction tkeys with
  | nil => intro _ hmem; cases hmem
  | cons kv rest ih =>
    intro hnd hmem
    obtain ⟨k', v'⟩ := kv
    rw [List.map_cons, List.nodup_cons] at hnd
    rcases List.mem_cons.mp hmem with heq | hmem'
    · injection heq with h1 h2
      subst h1
      subst h2
      rw [getVal, if_pos rfl]
    · rw [getVal]
      by_cases h : k = k'
      · exfalso
        apply hnd.1
        rw [← h]
        simpa using List.mem_map_of_mem Prod.fst hmem'
      · rw [if_neg h]
        exact ih hnd.2 hmem'

theorem dictUpdate_append [DecidableEq κ] (m a b : List (κ × ν)) :
    dictUpdate m (a ++ b) = dictUpdate (dictUpdate m a) b := by
  unfold dictUpdate
  rw [List.foldl_append]

/-- Folding `dictUpdate` over the 20-element chunks of `ks` is the same
as one `dictUpdate` over all of `ks`. -/
theorem fold_chunks_dictUpdate [DecidableEq κ] (f : κ' → κ × ν) :
    ∀ (ks : List κ') (acc : List (κ × ν)),
      (chunks20 ks).foldl (fun acc batch => dictUpdate acc (batch.map f)) acc
        = dictUpdate acc (ks.map f) := by
  intro ks
  induction ks using chunks20.induct with
  | case1 => intro acc; rw [chunks20]; rfl
  | case2 a rest ih =>
    intro acc
    rw [chunks20, List.foldl_cons, ih, ← dictUpdate_append, ← List.map_append,
      List.take_append_drop]

/-- C6: when the external call for a language raises on every batch,
every key of the attempted batch (the first-20 slice) ends up mapped to
its source-language text in that language's table, and
`generate_translations` still emits one table per target language. -/
theorem c6_translation_fallback (tkeys : List (List Char × List Char))
    (call : List Char → List (List Char × List Char)
      → Except Unit (List (List Char × List Char)))
    (lang defaultLang : List Char) (langs : List (List Char))
    (k t : List Char)
    (hfail : ∀ b, call lang b = Except.error ())
    (hnodup : (tkeys.map Prod.fst).Nodup)
    (hk : (k, t) ∈ tkeys)
    (hk20 : k ∈ (tkeys.map Prod.fst).take 20) :
    getVal (generate_language_translations tkeys (call lang)) k = some t
    ∧ (generate_translations defaultLang langs tkeys call).map Prod.fst
      = langs := by
  constructor
  · unfold generate_language_translations
    have hfun : (fun (acc : List (List Char × List Char))
          (batch_keys : List (List Char)) =>
        match call lang (batch_keys.map (fun k => (k, (getVal tkeys k).getD []))) with
        | .ok parsed => dictUpdate acc parsed
        | .error _ => dictUpdate acc
            (batch_keys.map (fun k => (k, (getVal tkeys k).getD []))))
        = (fun (acc : List (List Char × List Char)) (batch : List (List Char)) =>
            dictUpdate acc (batch.map (fun k => (k, (getVal tkeys k).getD [])))) := by
      funext acc batch
      rw [hfail]
    rw [hfun, fold_chunks_dictUpdate]
    apply getVal_dictUpdate_mem
    · rw [List.map_map]
      have hid : (Prod.fst ∘ fun k => (k, (getVal tkeys k).getD []))
          = (id : List Char → List Char) := rfl
      rw [hid, List.map_id]
      exact List.Nodup.sublist (List.take_sublist _ _) hnodup
    · have hval : getVal tkeys k = some t := getVal_of_mem_nodup tkeys hnodup hk
      have hmm := List.mem_map_of_mem (fun k => (k, (getVal tkeys k).getD [])) hk20
      simpa [hval] using hmm
  · unfold generate_translations
    rw [List.map_map]
    have hid : (Prod.fst ∘ fun lang =>
          (lang, if lang = defaultLang then dictUpdate [] tkeys
                 else generate_language_translations tkeys (call lang)))
        = (id : List Char → List Char) := rfl
    rw [hid, List.map_id]

/-- Witness for C6: five keys, translator always raising for `"fr"`;
the key `k3` falls back to its source text `Submit`, and tables are
produced for all three configured languages. -/
theorem c6_translation_fallback_witness :
    getVal (generate_language_translations
        [("k1".data, "Hello".data), ("k2".data, "World".data),
         ("k3".data, "Submit".data), ("k4".data, "Cancel".data),
         ("k5".data, "Send".data)]
        ((fun _ _ => Except.error ()) "fr".data)) "k3".data
      = some "Submit".data
    ∧ (generate_translations "en".data ["en".data, "fr".data, "es".data]
        [("k1".data, "Hello".data), ("k2".data, "World".data),
         ("k3".data, "Submit".data), ("k4".data, "Cancel".data),
         ("k5".data, "Send".data)]
        (fun _ _ => Except.error ())).map Prod.fst
      = ["en".data, "fr".data, "es".data] :=
  c6_translation_fallback
    [("k1".data, "Hello".data), ("k2".data, "World".data),
     ("k3".data, "Submit".data), ("k4".data, "Cancel".data),
     ("k5".data, "Send".data)]
    (fun _ _ => Except.error ()) "fr".data "en".data
    ["en".data, "fr".data, "es".data] "k3".data "Submit".data
    (fun _ => rfl) (by decide) (by decide) (by decide)

/-!
## `I18nApplicator._apply_file_changes`: first-occurrence replacement

One iteration of the change loop (lines 222-237) does
`if original_text in content: content = content.replace(original_text,
replacement, 1)`.  `replaceFirst` is Python's `str.replace` with
`count = 1`: replace the leftmost occurrence only.
-/

/-- Python `content.replace(old, new, 1)`. -/
def replaceFirst (old new : List Char) : List Char → List Char
  | [] => if startsWith old [] then new else []
  | c :: rest =>
    if startsWith old (c :: rest) then new ++ (c :: rest).drop old.length
    else c :: replaceFirst old new rest

/-- One iteration of the `_apply_file_changes` loop for one change. -/
def applyOneChange (content orig repl : List Char) : List Char :=
  if containsSub orig content then replaceFirst orig repl content else content

/-- Positions of the non-overlapping occurrences of `pat`, scanning left
to right (the usual reading of "occurrences", as in Python's
`str.count`). -/
def occAux : List Char → List Char → Nat → List Nat
  | _, [], _ => []
  | [], _ :: _, _ => []
  | p :: ps, c :: rest, i =>
    if startsWith (p :: ps) (c :: rest)
    then i :: occAux (p :: ps) (rest.drop ps.length) (i + ps.length + 1)
    else occAux (p :: ps) rest (i + 1)
termination_by _ s _ => s.length
decreasing_by all_goals (simp_wf; try omega)

/-- Occurrence positions of `pat` in `content`. -/
def occList (content pat : List Char) : List Nat := occAux pat content 0

theorem startsWith_length [DecidableEq α] :
    ∀ {p l : List α}, startsWith p l = true → p.length ≤ l.length := by
  intro p
  induction p with
  | nil => intro l _; simp
  | cons a as ih =>
    intro l h
    cases l with
    | nil => rw [startsWith] at h; cases h
    | cons b bs =>
      rw [startsWith, Bool.and_eq_true] at h
      simpa using ih h.2

theorem occAux_ge : ∀ (pat s : List Char) (i : Nat), ∀ j ∈ occAux pat s i, i ≤ j := by
  intro pat s i
  induction pat, s, i using occAux.induct with
  | case1 pat i => intro j h; rw [occAux] at h; cases h
  | case2 c rest i => intro j h; rw [occAux] at h; cases h
  | case3 p ps c rest i hsw ih =>
    intro j h
    rw [occAux, if_pos hsw] at h
    rcases List.mem_cons.mp h with rfl | h'
    · exact le_refl j
    · have := ih j h'
      omega
  | case4 p ps c rest i hsw ih =>
    intro j h
    rw [occAux, if_neg hsw] at h
    have := ih j h
    omega

theorem occAux_startsWith : ∀ (pat s : List Char) (i : Nat),
    ∀ j ∈ occAux pat s i, startsWith pat (s.drop (j - i)) = true := by
  intro pat s i
  induction pat, s, i using occAux.induct with
  | case1 pat i => intro j h; rw [occAux] at h; cases h
  | case2 c rest i => intro j h; rw [occAux] at h; cases h
  | case3 p ps c rest i hsw ih =>
    intro j h
    rw [occAux, if_pos hsw] at h
    rcases List.mem_cons.mp h with rfl | h'
    · simpa using hsw
    · have hge := occAux_ge (p :: ps) (rest.drop ps.length) (i + ps.length + 1) j h'
      obtain ⟨d, hd⟩ : ∃ d, j - i = d + 1 := ⟨j - i - 1, by omega⟩
      have h1 : (c :: rest).drop (j - i) = rest.drop d := by
        rw [hd, List.drop_succ_cons]
      have h2 : (rest.drop ps.length).drop (j - (i + ps.length + 1))
          = rest.drop d := by
        rw [List.drop_drop]
        congr 1
        omega
      rw [h1, ← h2]
      exact ih j h'
  | case4 p ps c rest i hsw ih =>
    intro j h
    rw [occAux, if_neg hsw] at h
    have hge := occAux_ge (p :: ps) rest (i + 1) j h
    obtain ⟨d, hd⟩ : ∃ d, j - i = d + 1 := ⟨j - i - 1, by omega⟩
    have h1 : (c :: rest).drop (j - i) = rest.drop d := by
      rw [hd, List.drop_succ_cons]
    have h2 : rest.drop (j - (i + 1)) = rest.drop d := by
      congr 1
      omega
    rw [h1, ← h2]
    exact ih j h

theorem occAux_gap : ∀ (pat s : List Char) (i j : Nat) (t : List Nat),
    occAux pat s i = j :: t → ∀ m ∈ t, j + pat.length ≤ m := by
  intro pat s i
  induction pat, s, i using occAux.induct with
  | case1 pat i => intro j t h; rw [occAux] at h; cases h
  | case2 c rest i => intro j t h; rw [occAux] at h; cases h
  | case3 p ps c rest i hsw ih =>
    intro j t h
    rw [occAux, if_pos hsw] at h
    injection h with h1 h2
    intro m hm
    rw [← h2] at hm
    have hge := occAux_ge (p :: ps) (rest.drop ps.length) (i + ps.length + 1) m hm
    rw [← h1]
    simp only [List.length_cons]
    omega
  | case4 p ps c rest i hsw ih =>
    intro j t h
    rw [occAux, if_neg hsw] at h
    exact ih j t h

theorem occAux_replaceFirst : ∀ (pat s : List Char) (i : Nat)
    (new : List Char) (j : Nat) (t : List Nat),
    occAux pat s i = j :: t →
    replaceFirst pat new s = s.take (j - i) ++ new ++ s.drop (j - i + pat.length) := by
  intro pat s i
  induction pat, s, i using occAux.induct with
  | case1 pat i => intro new j t h; rw [occAux] at h; cases h
  | case2 c rest i => intro new j t h; rw [occAux] at h; cases h
  | case3 p ps c rest i hsw ih =>
    intro new j t h
    rw [occAux, if_pos hsw] at h
    injection h with h1 h2
    rw [replaceFirst, if_pos hsw, ← h1]
    simp [Nat.sub_self]
  | case4 p ps c rest i hsw ih =>
    intro new j t h
    rw [occAux, if_neg hsw] at h
    have hge : i + 1 ≤ j :=
      occAux_ge (p :: ps) rest (i + 1) j (by rw [h]; exact List.mem_cons_self j t)
    obtain ⟨d, hd⟩ : ∃ d, j - i = d + 1 := ⟨j - i - 1, by omega⟩
    rw [replaceFirst, if_neg hsw, ih new j t h]
    rw [show j - (i + 1) = d from by omega, hd, List.take_succ_cons,
      show d + 1 + (p :: ps).length = (d + (p :: ps).length) + 1 from by omega,
      List.drop_succ_cons]
    simp [List.cons_append]

/-- C8: when `pat` occurs two or more times (non-overlapping
occurrences at `j1 < j2 < …`), one candidate's edit replaces only the
first occurrence — the result is exactly the splice at `j1` — and every
subsequent occurrence is still present, shifted by the length delta. -/
theorem c8_first_occurrence_only (content pat repl : List Char)
    (j1 j2 : Nat) (rest : List Nat)
    (hocc : occList content pat = j1 :: j2 :: rest) :
    applyOneChange content pat repl
      = content.take j1 ++ repl ++ content.drop (j1 + pat.length)
    ∧ ∀ m ∈ j2 :: rest,
        startsWith pat ((applyOneChange content pat repl).drop
          (m + repl.length - pat.length)) = true := by
  rw [occList] at hocc
  have hmem1 : j1 ∈ occAux pat content 0 := by
    rw [hocc]; exact List.mem_cons_self _ _
  have hsw1 : startsWith pat (content.drop j1) = true := by
    simpa using occAux_startsWith pat content 0 j1 hmem1
  have hpatne : pat ≠ [] := by
    intro hp
    subst hp
    cases content with
    | nil => rw [occAux] at hocc; cases hocc
    | cons c cs => rw [occAux] at hocc; cases hocc
  have hlen1 : j1 + pat.length ≤ content.length := by
    have hl := startsWith_length hsw1
    rw [List.length_drop] at hl
    by_cases hj : j1 ≤ content.length
    · omega
    · exfalso
      rw [List.drop_eq_nil_of_le (by omega)] at hsw1
      cases pat with
      | nil => exact hpatne rfl
      | cons p ps => rw [startsWith] at hsw1; cases hsw1
  have happ : applyOneChange content pat repl = replaceFirst pat repl content := by
    unfold applyOneChange
    rw [if_pos (containsSub_of_isSubAt (i := j1) (by omega) hsw1)]
  have hrepl : replaceFirst pat repl content
      = content.take j1 ++ repl ++ content.drop (j1 + pat.length) := by
    simpa using occAux_replaceFirst pat content 0 repl j1 (j2 :: rest) hocc
  refine ⟨by rw [happ, hrepl], ?_⟩
  intro m hm
  have hmge : j1 + pat.length ≤ m :=
    occAux_gap pat content 0 j1 (j2 :: rest) hocc m hm
  have hmsw : startsWith pat (content.drop m) = true := by
    have hmm : m ∈ occAux pat content 0 := by
      rw [hocc]; exact List.mem_cons_of_mem j1 hm
    simpa using occAux_startsWith pat content 0 m hmm
  rw [happ, hrepl]
  have hA : (content.take j1 ++ repl).length = j1 + repl.length := by
    simp [List.length_take]
    omega
  rw [show m + repl.length - pat.length
      = (content.take j1 ++ repl).length + (m - j1 - pat.length)
    from by rw [hA]; omega]
  rw [List.drop_append, List.drop_drop,
    show j1 + pat.length + (m - j1 - pat.length) = m from by omega]
  exact hmsw

/-- Witness for C8: `"hello"` occurs at positions 3 and 12 of
`"ab hello cd hello ef"`; replacing with `"XY"` touches only the first
occurrence, and the second is still present at `12 + 2 - 5 = 9`. -/
theorem c8_first_occurrence_only_witness :
    applyOneChange "ab hello cd hello ef".data "hello".data "XY".data
      = "ab hello cd hello ef".data.take 3 ++ "XY".data
        ++ "ab hello cd hello ef".data.drop (3 + "hello".data.length)
    ∧ ∀ m ∈ [12],
        startsWith "hello".data
          ((applyOneChange "ab hello cd hello ef".data "hello".data "XY".data).drop
            (m + "XY".data.length - "hello".data.length)) = true :=
  c8_first_occurrence_only "ab hello cd hello ef".data "hello".data "XY".data
    3 12 [] (by simp [occList, occAux, startsWith])

/-!
## `I18nApplicator.apply_i18n_changes`: the dry-run frame property

The filesystem is an association list from path to file content; every
disk write of the Python code becomes a `setKey`.  `json.load`/
`json.dump` and `datetime.now()` are external collaborators passed as
parameters (`dec`, `enc`, `now`).
-/

/-- Path-indexed in-memory filesystem. -/
abbrev FS := List (List Char × List Char)

/-- One entry of `analysis_results['sorted_changes_by_position']`,
restricted to the fields `_apply_file_changes` and
`_generate_i18n_replacement` read.  `suggestedKey` carries the value of
`change.get('suggested_key', change.get('key', ''))`. -/
structure SChange where
  file : List Char
  text : List Char
  suggestedKey : List Char
  lineStart : Int
  currentLines : List (List Char)

/-- One record appended to `self.changes_applied`. -/
structure Applied where
  file : List Char
  original : List Char
  replacement : List Char
  line : Int

/-- The suffix after the first `'.'`, if any. -/
def afterFirstDot : List Char → Option (List Char)
  | [] => none
  | c :: r => if c = '.' then some r else afterFirstDot r

/-- `namespace, key = suggested_key.split('.', 1)` key part, or the whole
key when there is no dot. -/
def parseKeyTail (sk : List Char) : List Char := (afterFirstDot sk).getD sk

/-- `f"t('{key}')"`. -/
def tCallText (key : List Char) : List Char :=
  't' :: '(' :: squote :: (key ++ [squote, ')'])

/-- `I18nApplicator._generate_i18n_replacement` (lines 257-280). -/
def generate_i18n_replacement (c : SChange) : List Char :=
  if c.currentLines.any (fun line =>
      containsSub ['<'] line || containsSub ['>'] line
        || containsSub "return".data line)
  then replText (parseKeyTail c.suggestedKey)
  else tCallText (parseKeyTail c.suggestedKey)

/-- `f"{full_path}.backup.{timestamp}"`. -/
def backupPath (path now : List Char) : List Char :=
  path ++ ".backup.".data ++ now

/-- `I18nApplicator._apply_file_changes` (lines 201-255) as a filesystem
transformer: read the file, sort the changes by line descending
(stable), replace the first occurrence of each change text, then —
only when not in dry-run and the content changed — write the backup
copy (if requested) and the new content. -/
def apply_file_changes (fs : FS) (proj file_path : List Char)
    (changes : List SChange) (backup dry_run : Bool) (now : List Char)
    (applied : List Applied) : FS × List Applied :=
  match getVal fs (proj ++ file_path) with
  | none => (fs, applied)
  | some content =>
    let sorted := stableSort (fun a b => b.lineStart ≤ a.lineStart) changes
    let res := sorted.foldl
      (fun (st : List Char × List Applied) ch =>
        if containsSub ch.text st.1 then
          (replaceFirst ch.text (generate_i18n_replacement ch) st.1,
           st.2 ++ [⟨file_path, ch.text, generate_i18n_replacement ch, ch.lineStart⟩])
        else st)
      (content, applied)
    if ¬ dry_run ∧ res.1 ≠ content then
      ((setKey (if backup then setKey fs (backupPath (proj ++ file_path) now) content
                else fs)
          (proj ++ file_path) res.1), res.2)
    else (fs, res.2)

/-- First-seen order of the files of the change list
(`changes_by_file` insertion order). -/
def groupFiles (changes : List SChange) : List (List Char) :=
  changes.foldl (fun acc c => if c.file ∈ acc then acc else acc ++ [c.file]) []

/-- `I18nApplicator._apply_source_file_changes` (lines 184-199). -/
def apply_source_file_changes (fs : FS) (proj : List Char)
    (changes : List SChange) (backup dry_run : Bool) (now : List Char) :
    FS × List Applied :=
  (groupFiles changes).foldl
    (fun st f =>
      apply_file_changes st.1 proj f (changes.filter (fun c => c.file = f))
        backup dry_run now st.2)
    (fs, [])

/-- `public/locales/<lang>/common.json` under the project root. -/
def transPath (proj lang : List Char) : List Char :=
  proj ++ "/public/locales/".data ++ lang ++ "/common.json".data

/-- Lexicographic comparison of keys (Python tuple sort on dict items
with unique keys). -/
def lexLe : List Char → List Char → Bool
  | [], _ => true
  | _ :: _, [] => false
  | a :: as, b :: bs => if a = b then lexLe as bs else decide (a < b)

/-- `I18nApplicator._save_translation_files` (lines 282-304): for each
language, write the alphabetically sorted table — unless in dry-run. -/
def save_translation_files (fs : FS) (proj : List Char)
    (tfiles : List (List Char × List (List Char × List Char)))
    (dry_run : Bool)
    (enc : List (List Char × List Char) → List Char) : FS :=
  tfiles.foldl
    (fun fs' lm =>
      if dry_run then fs'
      else setKey fs' (transPath proj lm.1)
        (enc (stableSort (fun a b => lexLe a.1 b.1) lm.2)))
    fs

/-- Python `str.strip()` (whitespace both ends). -/
def pyStrip (l : List Char) : List Char :=
  ((l.dropWhile isPyWS).reverse.dropWhile isPyWS).reverse

/-- `content.split('\n')`. -/
def splitNl : List Char → List (List Char)
  | [] => [[]]
  | c :: r =>
    if c = '\n' then [] :: splitNl r
    else
      match splitNl r with
      | h :: t => (c :: h) :: t
      | [] => [[c]]

/-- `'\n'.join(lines)`. -/
def joinNl : List (List Char) → List Char
  | [] => []
  | [l] => l
  | l :: ls => l ++ '\n' :: joinNl ls

/-- Python `list.insert` (clamps at the end). -/
def insertAt : Nat → α → List α → List α
  | 0, a, l => a :: l
  | _ + 1, a, [] => [a]
  | n + 1, a, x :: xs => x :: insertAt n a xs

/-- `"import { useTranslation } from 'react-i18next';"` (the inserted
line, after `rstrip`). -/
def importLineText : List Char :=
  "import ".data ++ [lbrace] ++ " useTranslation ".data ++ [rbrace]
    ++ " from ".data ++ [squote] ++ "react-i18next".data ++ [squote] ++ [';']

/-- The alternative presence check `"import { t }"`. -/
def importTBrace : List Char :=
  "import ".data ++ [lbrace] ++ " t ".data ++ [rbrace]

/-- `"  const { t } = useTranslation();"`. -/
def hookLineNoNl : List Char :=
  "  const ".data ++ [lbrace] ++ " t ".data ++ [rbrace]
    ++ " = useTranslation();".data

/-- One past the last line whose stripped text begins with `import `
(0 when there is none). -/
def lastImportIdx (lines : List (List Char)) : Nat :=
  lines.enum.foldl
    (fun acc il =>
      if startsWith "import ".data (pyStrip il.2) then il.1 + 1 else acc)
    0

/-- The first line looking like a component declaration, as an insertion
index one past it. -/
def hookIdx (lines : List (List Char)) : Option Nat :=
  (lines.enum.find? (fun il =>
    (containsSub "function ".data il.2 && containsSub ['('] il.2)
      || (containsSub "const ".data il.2 && containsSub ['=', '>'] il.2))).map
    (fun il => il.1 + 1)

/-- `I18nApplicator._add_i18n_import_to_file` (lines 313-364). -/
def add_i18n_import_to_file (fs : FS) (proj file_path : List Char)
    (dry_run : Bool) : FS :=
  match getVal fs (proj ++ file_path) with
  | none => fs
  | some content =>
    if containsSub marker content || containsSub importTBrace content then fs
    else
      let lines1 := insertAt (lastImportIdx (splitNl content)) importLineText
        (splitNl content)
      let lines2 :=
        if containsSub "function ".data content
            || (containsSub "const ".data content
                  && containsSub ['=', '>'] content)
        then
          match hookIdx lines1 with
          | some i => insertAt i hookLineNoNl lines1
          | none => lines1
        else lines1
      if dry_run then fs else setKey fs (proj ++ file_path) (joinNl lines2)

/-- `I18nApplicator._load_translation_files` (lines 118-137): read-only. -/
def load_translation_files (fs : FS) (proj : List Char)
    (langs : List (List Char))
    (dec : List Char → Option (List (List Char × List Char))) :
    List (List Char × List (List Char × List Char)) :=
  langs.map (fun lang =>
    (lang,
     match getVal fs (transPath proj lang) with
     | none => []
     | some c => (dec c).getD []))

/-- `f"TODO: Translate '{original_text}' to {lang}"`. -/
def placeholderText (text lang : List Char) : List Char :=
  "TODO: Translate ".data ++ [squote] ++ text ++ [squote]
    ++ " to ".data ++ lang

/-- The prefix before the first `'.'`. -/
def beforeFirstDot (sk : List Char) : List Char :=
  sk.takeWhile (fun c => ¬ (c = '.'))

/-- The namespace/key split of a suggested key. -/
def nsSplit (sk : List Char) : List Char × List Char :=
  match afterFirstDot sk with
  | some rest => (beforeFirstDot sk, rest)
  | none => ("common".data, sk)

/-- Store into a nested dict of dicts. -/
def nestSet (m : List (List Char × List (List Char × List Char)))
    (lang k v : List Char) : List (List Char × List (List Char × List Char)) :=
  setKey m lang (setKey ((getVal m lang).getD []) k v)

/-- `I18nApplicator._add_translations_to_files` (lines 139-182): pure
in-memory merge of the new translations; `required` holds
`(change_key, suggested_key, text)` triples with the `.get` defaults
already resolved. -/
def add_translations_to_files
    (tfiles : List (List Char × List (List Char × List Char)))
    (required : List (List Char × List Char × List Char))
    (langs : List (List Char)) (defaultLang : List Char) :
    List (List Char × List (List Char × List Char)) :=
  (required.foldl
    (fun nt ck =>
      if (nsSplit ck.2.1).1 = "common".data then
        langs.foldl
          (fun nt2 lang =>
            if lang = defaultLang then nt2
            else nestSet nt2 lang (nsSplit ck.2.1).2
              (placeholderText ck.2.2 lang))
          (nestSet nt defaultLang (nsSplit ck.2.1).2 ck.2.2)
      else nt)
    []).foldl
    (fun tf lm =>
      setKey tf lm.1
        (lm.2.foldl
          (fun cur kv =>
            if (getVal cur kv.1).isNone then setKey cur kv.1 kv.2 else cur)
          ((getVal tf lm.1).getD [])))
    tfiles

/-- First-seen deduplication (`set(...)` cardinality source). -/
def dedupFirst (l : List (List Char)) : List (List Char) :=
  l.foldl (fun acc f => if f ∈ acc then acc else acc ++ [f]) []

/-- The record built by `_create_application_summary` (lines 366-383). -/
structure AppSummary where
  languages : List (List Char)
  translationCounts : List (List Char × Nat)
  sourceFilesModified : Nat
  totalReplacements : Nat
  changesApplied : List Applied

/-- `I18nApplicator._create_application_summary`. -/
def create_application_summary
    (tfiles : List (List Char × List (List Char × List Char)))
    (applied : List Applied) : AppSummary :=
  ⟨tfiles.map Prod.fst,
   tfiles.map (fun lm => (lm.1, lm.2.length)),
   (dedupFirst (applied.map Applied.file)).length,
   applied.length,
   applied⟩

/-- `I18nApplicator.apply_i18n_changes` (lines 69-116): load the
translation tables, merge the new translations, patch the source files,
save the tables, add the imports, and return the summary. -/
def apply_i18n_changes (fs : FS) (proj defaultLang : List Char)
    (langs : List (List Char))
    (required : List (List Char × List Char × List Char))
    (sorted_changes : List SChange)
    (files_needing : List (List Char))
    (backup dry_run : Bool) (now : List Char)
    (dec : List Char → Option (List (List Char × List Char)))
    (enc : List (List Char × List Char) → List Char) : FS × AppSummary :=
  let tfiles := add_translations_to_files
    (load_translation_files fs proj langs dec) required langs defaultLang
  let res := apply_source_file_changes fs proj sorted_changes backup dry_run now
  let fs3 := files_needing.foldl
    (fun f p => add_i18n_import_to_file f proj p dry_run)
    (save_translation_files res.1 proj tfiles dry_run enc)
  (fs3, create_application_summary tfiles res.2)

theorem apply_file_changes_dry (fs : FS) (proj file_path : List Char)
    (changes : List SChange) (backup : Bool) (now : List Char)
    (applied : List Applied) :
    (apply_file_changes fs proj file_path changes backup true now applied).1 = fs := by
  cases hg : getVal fs (proj ++ file_path) with
  | none => simp [apply_file_changes, hg]
  | some content => simp [apply_file_changes, hg]

theorem foldl_fst_const {γ β : Type _} (g : FS × γ → β → FS × γ)
    (h : ∀ st b, (g st b).1 = st.1) :
    ∀ (l : List β) (st : FS × γ), (l.foldl g st).1 = st.1 := by
  intro l
  induction l with
  | nil => intro st; rfl
  | cons b bs ih =>
    intro st
    rw [List.foldl_cons, ih (g st b), h st b]

theorem apply_source_file_changes_dry (fs : FS) (proj : List Char)
    (changes : List SChange) (backup : Bool) (now : List Char) :
    (apply_source_file_changes fs proj changes backup true now).1 = fs := by
  unfold apply_source_file_changes
  exact foldl_fst_const _
    (fun st f => apply_file_changes_dry st.1 proj f _ backup now st.2) _ _

theorem save_translation_files_dry (proj : List Char)
    (enc : List (List Char × List Char) → List Char) :
    ∀ (tfiles : List (List Char × List (List Char × List Char))) (fs : FS),
      save_translation_files fs proj tfiles true enc = fs := by
  intro tfiles
  induction tfiles with
  | nil => intro fs; rfl
  | cons lm rest ih =>
    intro fs
    unfold save_translation_files at *
    rw [List.foldl_cons]
    exact ih fs

theorem add_i18n_import_to_file_dry (fs : FS) (proj file_path : List Char) :
    add_i18n_import_to_file fs proj file_path true = fs := by
  cases hg : getVal fs (proj ++ file_path) with
  | none => simp [add_i18n_import_to_file, hg]
  | some content => simp [add_i18n_import_to_file, hg]

theorem imports_fold_dry (proj : List Char) :
    ∀ (files : List (List Char)) (fs : FS),
      files.foldl (fun f p => add_i18n_import_to_file f proj p true) fs = fs := by
  intro files
  induction files with
  | nil => intro fs; rfl
  | cons p ps ih =>
    intro fs
    rw [List.foldl_cons, add_i18n_import_to_file_dry fs proj p, ih fs]

/-- C9: with `dry_run = True` the whole change application leaves the
filesystem untouched — no source file, no translation JSON, no backup
copy is written — while the summary is still computed from the merged
tables and the computed (but unwritten) replacements. -/
theorem c9_dry_run_no_writes (fs : FS) (proj defaultLang : List Char)
    (langs : List (List Char))
    (required : List (List Char × List Char × List Char))
    (sorted_changes : List SChange)
    (files_needing : List (List Char))
    (backup : Bool) (now : List Char)
    (dec : List Char → Option (List (List Char × List Char)))
    (enc : List (List Char × List Char) → List Char) :
    (apply_i18n_changes fs proj defaultLang langs required sorted_changes
        files_needing backup true now dec enc).1 = fs
    ∧ (apply_i18n_changes fs proj defaultLang langs required sorted_changes
        files_needing backup true now dec enc).2
      = create_application_summary
          (add_translations_to_files
            (load_translation_files fs proj langs dec) required langs defaultLang)
          (apply_source_file_changes fs proj sorted_changes backup true now).2 := by
  constructor
  · unfold apply_i18n_changes
    simp only
    rw [apply_source_file_changes_dry fs proj sorted_changes backup now,
      save_translation_files_dry proj enc _ fs,
      imports_fold_dry proj files_needing fs]
  · rfl
